import Mathlib

/-!
# Row partitioning and dispatch of the threaded Mandelbrot renderer

Shallow embedding of `src/prog1_mandelbrot_threads/mandelbrotThread.cpp` and
`src/prog1_mandelbrot_threads/TestThread.cpp`.

* C `int` values are `Int`, C `unsigned int` values are `Nat`; the conversions and
  the wrapping unsigned operations are explicit (`toUnsigned`, `toSigned`, `umul`,
  `uadd`).  Operations whose C++ behaviour is undefined (division by zero, signed
  overflow) return `none`.
* The shared output buffer `int output[]` is a `List Int`.
* The pixel kernel `mandelbrotSerial` is external to both files; it is modelled by
  the pixel function `f row col` it stores (the region bounds and the iteration cap
  are the same in every call of one run, so they are part of `f`).
* The threads of one run are executed one after another in the order given by a
  schedule, a list of thread ids.  Timing and text output are not modelled.
-/

namespace Mandelbrot

/-! ## Machine integers -/

/-- Range of the C type `int` (32 bits, two's complement). -/
def isInt (x : Int) : Prop := -2147483648 ≤ x ∧ x < 2147483648

instance (x : Int) : Decidable (isInt x) := by
  unfold isInt; infer_instance

/-- Conversion `int → unsigned int`: reduction modulo `2^32`. -/
def toUnsigned (x : Int) : Nat := (x % 4294967296).toNat

/-- Conversion `unsigned int → int`: the value with the same 32 bits. -/
def toSigned (n : Nat) : Int :=
  if n % 4294967296 < 2147483648 then ((n % 4294967296 : Nat) : Int)
  else ((n % 4294967296 : Nat) : Int) - 4294967296

/-- Unsigned division; division by zero is undefined. -/
def udiv (a b : Nat) : Option Nat := if b = 0 then none else some (a / b)

/-- Unsigned multiplication, modulo `2^32`. -/
def umul (a b : Nat) : Nat := (a * b) % 4294967296

/-- Unsigned addition, modulo `2^32`. -/
def uadd (a b : Nat) : Nat := (a + b) % 4294967296

/-- Signed addition; overflow is undefined. -/
def sadd (a b : Int) : Option Int := if isInt (a + b) then some (a + b) else none

/-- Signed subtraction; overflow is undefined. -/
def ssub (a b : Int) : Option Int := if isInt (a - b) then some (a - b) else none

/-- Signed multiplication; overflow is undefined. -/
def smul (a b : Int) : Option Int := if isInt (a * b) then some (a * b) else none

/-! ## Data model -/

/-- The fields of `WorkerArgs` that the row arithmetic reads.  The region bounds and
`maxIterations` are carried by the pixel function, `output` by the `World`. -/
structure WorkerArgs where
  width : Nat
  height : Nat
  threadId : Int
  numThreads : Int
  deriving DecidableEq

/-- Who executes a call of `workerThreadStart`: the thread that called
`mandelbrotThread`, or the `std::thread` stored in `workers[i]`. -/
inductive Runner where
  | caller
  | spawned (i : Nat)
  deriving DecidableEq

/-- Observable steps of one run of `mandelbrotThread`. -/
inductive Event where
  | spawn (i : Nat)
  | kernel (by_ : Runner) (startRow numRows : Int)
  | join (i : Nat)
  deriving DecidableEq

/-- The output buffer together with the log of the steps taken so far. -/
structure World where
  output : List Int
  trace : List Event
  deriving DecidableEq

/-- How a call of `mandelbrotThread` ends. -/
inductive Result where
  | returned (w : World)
  | exited (code : Int) (w : World)
  | undefined
  deriving DecidableEq

/-- The buffer after a normal return. -/
def Result.output? : Result → Option (List Int)
  | .returned w => some w.output
  | _ => none

/-- The call was rejected: the process was terminated by `exit`. -/
def Result.rejected : Result → Bool
  | .exited _ _ => true
  | _ => false

/-! ## The kernel -/

/-- One assignment `output[index] = v`.  An index outside the buffer stores nothing. -/
def store (output : List Int) (index : Int) (v : Int) : List Int :=
  if 0 ≤ index then output.set index.toNat v else output

/-- The inner loop of the kernel: columns `0 .. cols-1` of row `j`. -/
def mandelbrotRow (width : Int) (j : Int) (f : Int → Int → Int) (cols : Nat)
    (output : List Int) : List Int :=
  (List.range cols).foldl
    (fun (out : List Int) (i : Nat) => store out (j * width + (i : Int)) (f j (i : Int))) output

/-- Modelled from the spec: the kernel `mandelbrotSerial` is declared `extern` in both
source files and defined in neither.  For exactly the rows in
`[startRow, startRow + numRows)` it writes the per-pixel value `f row col` at index
`row * width + col`, row by row and column by column, and leaves every other index
unchanged. -/
def mandelbrotSerial (width _height startRow numRows : Int) (f : Int → Int → Int)
    (output : List Int) : List Int :=
  (List.range numRows.toNat).foldl
    (fun (out : List Int) (d : Nat) =>
      mandelbrotRow width (startRow + (d : Int)) f width.toNat out) output

/-! ## Dispatch, common to both files -/

/-- The value of `MAX_THREADS`. -/
def MAX_THREADS : Int := 32

/-- The record `args[i]` after the initialisation loop of `mandelbrotThread`. -/
def mkArgs (numThreads width height : Int) (i : Nat) : WorkerArgs :=
  { width := toUnsigned width, height := toUnsigned height,
    threadId := (i : Int), numThreads := numThreads }

/-- The array `args` after the initialisation loop: entries `0 .. numThreads-1` are set,
the others are uninitialised. -/
def initArgs (numThreads width height : Int) : List WorkerArgs :=
  (List.range numThreads.toNat).map (mkArgs numThreads width height)

/-- The ids `1 .. numThreads-1` of the threads the spawn loop creates. -/
def spawnedIds (numThreads : Int) : List Nat :=
  (List.range (numThreads.toNat - 1)).map (· + 1)

/-- The worker invocations of one run: id `0` on the calling thread and one per spawned
thread.  A schedule of the run is a permutation of this list. -/
def workerIds (numThreads : Int) : List Nat := 0 :: spawnedIds numThreads

/-- Who runs worker `i`. -/
def runnerOf (i : Nat) : Runner := if i = 0 then Runner.caller else Runner.spawned i

/-- Executes the worker invocations in schedule order.  Reading an uninitialised
`args[i]` is undefined. -/
def runWorkers (worker : Runner → WorkerArgs → World → Option World)
    (args : List WorkerArgs) : List Nat → World → Option World
  | [], w => some w
  | i :: rest, w =>
    match args[i]? with
    | none => none
    | some a =>
      match worker (runnerOf i) a w with
      | none => none
      | some w1 => runWorkers worker args rest w1

/-! ## Row ranges and schedules -/

/-- Policy (a) of the specification, even split with the remainder to the last worker:
worker `i` gets `(startRow, numRows)` with `q = height / numThreads` rows from `i * q`,
and the last worker gets every row from its start up to `height - 1`. -/
def remainderToLast (height numThreads : Int) (i : Nat) : Int × Int :=
  ((i : Int) * (height / numThreads),
    if (i : Int) < numThreads - 1 then height / numThreads
    else height - (i : Int) * (height / numThreads))

/-- Policy (b) of the specification, even split with a truncated tail: every worker,
the last included, gets exactly `q = height / numThreads` rows from `i * q`. -/
def truncatedTail (height numThreads : Int) (i : Nat) : Int × Int :=
  ((i : Int) * (height / numThreads), height / numThreads)

/-- Row `r` lies in the range `[startRow, startRow + numRows)` passed to the kernel. -/
def inRange (rg : Option (Int × Int)) (r : Int) : Prop :=
  match rg with
  | some (s, c) => s ≤ r ∧ r < s + c
  | none => False

instance (rg : Option (Int × Int)) (r : Int) : Decidable (inRange rg r) := by
  unfold inRange
  split <;> infer_instance

/-- The kernel calls of a schedule, one after another, worker `i` with range `rg i`. -/
def runBlocks (width height : Int) (f : Int → Int → Int) (rg : Nat → Int × Int)
    (sched : List Nat) (out : List Int) : List Int :=
  sched.foldl (fun (o : List Int) (i : Nat) =>
    mandelbrotSerial width height (rg i).1 (rg i).2 f o) out

/-- A worker entry that calls the kernel once with the range `rg i`. -/
def CallsKernel (worker : Runner → WorkerArgs → World → Option World)
    (args : List WorkerArgs) (width height : Int) (f : Int → Int → Int)
    (rg : Nat → Int × Int) (i : Nat) : Prop :=
  ∃ a, args[i]? = some a ∧ ∀ (r : Runner) (w : World), worker r a w =
    some { output := mandelbrotSerial width height (rg i).1 (rg i).2 f w.output,
           trace := w.trace ++ [Event.kernel r (rg i).1 (rg i).2] }

end Mandelbrot

/-! ## `mandelbrotThread.cpp` -/

namespace MandelbrotThread
open Mandelbrot

/-- The `(startRow, numRows)` arguments that `workerThreadStart` passes to the kernel
(lines 35-47): `startRowCount` and `endRowCount - startRowCount`. -/
def rowRange (args : WorkerArgs) : Option (Int × Int) := do
  let q ← udiv args.height (toUnsigned args.numThreads)
  let startRowCount : Int := toSigned (umul (toUnsigned args.threadId) q)
  let endRowCount0 : Int := toSigned (uadd (toUnsigned startRowCount) q)
  let last ← ssub args.numThreads 1
  let endRowCount : Int := if args.threadId = last then toSigned args.height else endRowCount0
  let numRows ← ssub endRowCount startRowCount
  pure (startRowCount, numRows)

/-- Thread entry point of `mandelbrotThread.cpp`. -/
def workerThreadStart (f : Int → Int → Int) (by_ : Runner) (args : WorkerArgs)
    (w : World) : Option World := do
  let (startRowCount, numRows) ← rowRange args
  pure { output := mandelbrotSerial (toSigned args.width) (toSigned args.height)
                     startRowCount numRows f w.output,
         trace := w.trace ++ [Event.kernel by_ startRowCount numRows] }

/-- The dispatch entry point of `mandelbrotThread.cpp`; `sched` is the order in which
the worker invocations take effect. -/
def mandelbrotThread (sched : List Nat) (numThreads width height : Int)
    (f : Int → Int → Int) (w : World) : Result :=
  if numThreads > MAX_THREADS then Result.exited 1 w
  else
    let args := initArgs numThreads width height
    let w1 : World := { w with trace := w.trace ++ (spawnedIds numThreads).map Event.spawn }
    match runWorkers (workerThreadStart f) args sched w1 with
    | none => Result.undefined
    | some w2 =>
      Result.returned { w2 with trace := w2.trace ++ (spawnedIds numThreads).map Event.join }

end MandelbrotThread

/-! ## `TestThread.cpp` -/

namespace TestThread
open Mandelbrot

/-- The `(startRow, numRows)` arguments that `workerThreadStart` passes to the kernel
(lines 37-46). -/
def rowRange (args : WorkerArgs) : Option (Int × Int) := do
  let q ← udiv args.height (toUnsigned args.numThreads)
  let numRows : Int := toSigned q
  let startRow ← smul args.threadId numRows
  pure (startRow, numRows)

/-- Thread entry point of `TestThread.cpp`.  The last row `startRow + numRows - 1` is
computed for the progress line only. -/
def workerThreadStart (f : Int → Int → Int) (by_ : Runner) (args : WorkerArgs)
    (w : World) : Option World := do
  let (startRow, numRows) ← rowRange args
  let out := mandelbrotSerial (toSigned args.width) (toSigned args.height)
               startRow numRows f w.output
  let e ← sadd startRow numRows
  let _ ← ssub e 1
  pure { output := out, trace := w.trace ++ [Event.kernel by_ startRow numRows] }

/-- The dispatch entry point of `TestThread.cpp`; `sched` is the order in which the
worker invocations take effect. -/
def mandelbrotThread (sched : List Nat) (numThreads width height : Int)
    (f : Int → Int → Int) (w : World) : Result :=
  if numThreads > MAX_THREADS then Result.exited 1 w
  else
    let args := initArgs numThreads width height
    let w1 : World := { w with trace := w.trace ++ (spawnedIds numThreads).map Event.spawn }
    match runWorkers (workerThreadStart f) args sched w1 with
    | none => Result.undefined
    | some w2 =>
      Result.returned { w2 with trace := w2.trace ++ (spawnedIds numThreads).map Event.join }

/-- The comparison loop of `testThreadCounts` (lines 146-153) over `n` elements. -/
def passed (outputSerial outputParallel : List Int) (n : Nat) : Bool :=
  (List.range n).all (fun i => decide (outputSerial[i]? = outputParallel[i]?))

/-- One iteration of the sweep of `testThreadCounts` (lines 139-160) for an image of
`width × height` pixels: the parallel buffer is zero-filled, `mandelbrotThread` runs,
and the result is compared with the reference buffer `outputSerial`.  The value is
`some true` for "Passed correctness check", `some false` for "Failed correctness check". -/
def testOne (sched : List Nat) (numThreads width height : Int) (f : Int → Int → Int)
    (outputSerial : List Int) : Option Bool :=
  let outputParallel : List Int := List.replicate (width * height).toNat 0
  match mandelbrotThread sched numThreads width height f
      { output := outputParallel, trace := [] } with
  | Result.returned w => some (passed outputSerial w.output (width * height).toNat)
  | _ => none

/-- The function `testThreadCounts`: the serial reference run over all rows into a freshly
allocated buffer `fresh`, then the sweep `numThreads = 2 .. 8` at `2048 × 2048`;
`sched numThreads` is the schedule of the run with `numThreads` threads. -/
def testThreadCounts (sched : Int → List Nat) (f : Int → Int → Int)
    (fresh : List Int) : List (Int × Option Bool) :=
  let outputSerial := mandelbrotSerial 2048 2048 0 2048 f fresh
  [2, 3, 4, 5, 6, 7, 8].map fun numThreads =>
    (numThreads, testOne (sched numThreads) numThreads 2048 2048 f outputSerial)

end TestThread

/-! ## Lemmas: the kernel -/

namespace Mandelbrot

theorem length_store (out : List Int) (idx v : Int) : (store out idx v).length = out.length := by
  unfold store; split <;> simp

theorem getElem?_store (out : List Int) (idx v : Int) (k : Nat) :
    (store out idx v)[k]? =
      if (k : Int) = idx ∧ k < out.length then some v else out[k]? := by
  unfold store
  by_cases h : 0 ≤ idx
  · rw [if_pos h, List.getElem?_set]
    by_cases hk : idx.toNat = k
    · have : (k : Int) = idx := by omega
      by_cases hl : k < out.length
      · simp [hk, this, hl]
      · simp [hk, this, hl]; omega
    · have : ¬ (k : Int) = idx := by omega
      simp [hk, this]
  · rw [if_neg h]
    have : ¬ (k : Int) = idx := by omega
    simp [this]

theorem length_mandelbrotRow (width j : Int) (f : Int → Int → Int) (cols : Nat)
    (out : List Int) : (mandelbrotRow width j f cols out).length = out.length := by
  unfold mandelbrotRow
  induction cols with
  | zero => simp
  | succ c ih => rw [List.range_succ, List.foldl_append]; simp [length_store, ih]

theorem getElem?_mandelbrotRow (width j : Int) (f : Int → Int → Int) (cols : Nat)
    (out : List Int) (k : Nat) :
    (mandelbrotRow width j f cols out)[k]? =
      if k < out.length ∧ j * width ≤ (k : Int) ∧ (k : Int) < j * width + cols
      then some (f j ((k : Int) - j * width)) else out[k]? := by
  induction cols with
  | zero =>
    have : ¬ (k < out.length ∧ j * width ≤ (k : Int) ∧ (k : Int) < j * width + ((0 : Nat) : Int)) := by
      omega
    rw [if_neg this]; simp [mandelbrotRow]
  | succ c ih =>
    have hlen := length_mandelbrotRow width j f c out
    unfold mandelbrotRow at ih hlen ⊢
    rw [List.range_succ, List.foldl_append]
    simp only [List.foldl_cons, List.foldl_nil]
    rw [getElem?_store, ih, hlen]
    by_cases h1 : (k : Int) = j * width + (c : Int) ∧ k < out.length
    · rw [if_pos h1, if_pos (by omega)]
      congr 2
      omega
    · rw [if_neg h1]
      by_cases h2 : k < out.length ∧ j * width ≤ (k : Int) ∧ (k : Int) < j * width + (c : Int)
      · rw [if_pos h2, if_pos (by push_cast; omega)]
      · rw [if_neg h2, if_neg (by push_cast; omega)]

theorem row_iff (w j k : Int) (hw : 0 < w) :
    (j * w ≤ k ∧ k < j * w + w) ↔ k / w = j := by
  constructor
  · rintro ⟨h1, h2⟩
    have := (Int.ediv_emod_unique (a := k) (r := k - j * w) (q := j) hw).2
      ⟨by rw [Int.mul_comm w j]; omega, by omega, by omega⟩
    exact this.1
  · intro h
    have h1 := Int.ediv_add_emod k w
    have h2 := Int.emod_nonneg k (Int.ne_of_gt hw)
    have h3 := Int.emod_lt_of_pos k hw
    rw [h, Int.mul_comm w j] at h1
    constructor <;> omega

theorem row_col (w j k : Int) (h : k / w = j) : k - j * w = k % w := by
  have h1 := Int.ediv_add_emod k w
  rw [h, Int.mul_comm w j] at h1
  omega

theorem length_mandelbrotSerial (width height startRow numRows : Int) (f : Int → Int → Int)
    (out : List Int) :
    (mandelbrotSerial width height startRow numRows f out).length = out.length := by
  unfold mandelbrotSerial
  induction numRows.toNat with
  | zero => simp
  | succ d ih => rw [List.range_succ, List.foldl_append]; simp [length_mandelbrotRow, ih]

theorem getElem?_rows (width startRow : Int) (hw : 0 < width) (f : Int → Int → Int)
    (out : List Int) (k d : Nat) :
    ((List.range d).foldl (fun (out : List Int) (d : Nat) =>
        mandelbrotRow width (startRow + (d : Int)) f width.toNat out) out)[k]? =
      if k < out.length ∧ startRow ≤ (k : Int) / width ∧ (k : Int) / width < startRow + d
      then some (f ((k : Int) / width) ((k : Int) % width)) else out[k]? := by
  induction d with
  | zero =>
    rw [if_neg (by omega)]; simp
  | succ d ih =>
    have hlen : ((List.range d).foldl (fun (out : List Int) (d : Nat) =>
        mandelbrotRow width (startRow + (d : Int)) f width.toNat out) out).length
          = out.length := by
      clear ih
      induction d with
      | zero => simp
      | succ d ih => rw [List.range_succ, List.foldl_append]; simp [length_mandelbrotRow, ih]
    rw [List.range_succ, List.foldl_append]
    simp only [List.foldl_cons, List.foldl_nil]
    rw [getElem?_mandelbrotRow, ih, hlen]
    have hcast : ((width.toNat : Nat) : Int) = width := Int.toNat_of_nonneg (le_of_lt hw)
    rw [hcast]
    have hiff := row_iff width (startRow + (d : Int)) (k : Int) hw
    by_cases hrow : (k : Int) / width = startRow + (d : Int)
    · have hcol := row_col width _ (k : Int) hrow
      by_cases hk : k < out.length
      · rw [if_pos ⟨hk, hiff.2 hrow⟩, if_pos (by push_cast; omega), hcol, hrow]
      · rw [if_neg (by tauto), if_neg (by tauto), if_neg (by tauto)]
    · have : ¬ ((startRow + (d : Int)) * width ≤ (k : Int) ∧
          (k : Int) < (startRow + (d : Int)) * width + width) := fun h => hrow (hiff.1 h)
      rw [if_neg (by tauto)]
      by_cases h2 : k < out.length ∧ startRow ≤ (k : Int) / width ∧
          (k : Int) / width < startRow + (d : Int)
      · rw [if_pos h2, if_pos (by push_cast; omega)]
      · rw [if_neg h2, if_neg (by push_cast; omega)]

/-- Pointwise description of the kernel for a positive width. -/
theorem getElem?_mandelbrotSerial (width height startRow numRows : Int) (hw : 0 < width)
    (f : Int → Int → Int) (out : List Int) (k : Nat) :
    (mandelbrotSerial width height startRow numRows f out)[k]? =
      if k < out.length ∧ startRow ≤ (k : Int) / width ∧ (k : Int) / width < startRow + numRows
      then some (f ((k : Int) / width) ((k : Int) % width)) else out[k]? := by
  unfold mandelbrotSerial
  rw [getElem?_rows width startRow hw]
  by_cases h : k < out.length ∧ startRow ≤ (k : Int) / width ∧
      (k : Int) / width < startRow + numRows
  · rw [if_pos h, if_pos (by omega)]
  · rw [if_neg h, if_neg (by omega)]

end Mandelbrot

/-! ## Lemmas: the row arithmetic -/

namespace Mandelbrot

theorem toUnsigned_natCast (n : Nat) (h : n < 4294967296) : toUnsigned (n : Int) = n := by
  unfold toUnsigned; omega

theorem toSigned_of_lt (n : Nat) (h : n < 2147483648) : toSigned n = (n : Int) := by
  unfold toSigned
  have : n % 4294967296 = n := by omega
  rw [this, if_pos h]

theorem udiv_of_pos (a b : Nat) (h : 0 < b) : udiv a b = some (a / b) := by
  unfold udiv; rw [if_neg (by omega)]

theorem ssub_of_isInt (a b : Int) (h : isInt (a - b)) : ssub a b = some (a - b) := by
  unfold ssub; rw [if_pos h]

theorem sadd_of_isInt (a b : Int) (h : isInt (a + b)) : sadd a b = some (a + b) := by
  unfold sadd; rw [if_pos h]

theorem smul_of_isInt (a b : Int) (h : isInt (a * b)) : smul a b = some (a * b) := by
  unfold smul; rw [if_pos h]

/-- Worker `i` and its `H / N` rows fit below `H`. -/
theorem block_le (H N i : Nat) (hi : i < N) : i * (H / N) + H / N ≤ H := by
  have h1 : (i + 1) * (H / N) ≤ N * (H / N) := Nat.mul_le_mul_right _ (by omega)
  have h2 : N * (H / N) ≤ H := Nat.mul_div_le H N
  have h3 : (i + 1) * (H / N) = i * (H / N) + H / N := by ring
  omega

end Mandelbrot

namespace MandelbrotThread
open Mandelbrot

theorem rowRange_nat (W : Int) (H N i : Nat) (hH : H < 2147483648) (hN : N ≤ 32)
    (hi : i < N) :
    rowRange (mkArgs (N : Int) W (H : Int) i) =
      some (((i * (H / N) : Nat) : Int),
        if i + 1 = N then ((H - i * (H / N) : Nat) : Int) else ((H / N : Nat) : Int)) := by
  have hb := block_le H N i hi
  have hq : H / N ≤ H := Nat.div_le_self H N
  unfold rowRange mkArgs
  simp only []
  rw [toUnsigned_natCast H (by omega), toUnsigned_natCast N (by omega),
    toUnsigned_natCast i (by omega), udiv_of_pos H N (by omega)]
  simp only [Option.bind_eq_bind, Option.some_bind]
  generalize hqd : H / N = q at *
  generalize hpd : i * q = p at *
  have hum : umul i q = p := by unfold umul; rw [hpd]; omega
  rw [hum, toSigned_of_lt p (by omega), toUnsigned_natCast p (by omega)]
  have hua : uadd p q = p + q := by unfold uadd; omega
  rw [hua, toSigned_of_lt (p + q) (by omega), toSigned_of_lt H hH,
    ssub_of_isInt (N : Int) 1 (by unfold isInt; omega)]
  simp only [Option.some_bind]
  by_cases hl : i + 1 = N
  · rw [if_pos (by omega), if_pos hl, ssub_of_isInt _ _ (by unfold isInt; omega)]
    simp only [Option.some_bind, Option.pure_def]
    congr 2
    omega
  · rw [if_neg (by omega), if_neg hl, ssub_of_isInt _ _ (by unfold isInt; push_cast; omega)]
    simp only [Option.some_bind, Option.pure_def]
    congr 2
    push_cast; omega

end MandelbrotThread

namespace TestThread
open Mandelbrot

theorem rowRange_trunc_nat (W : Int) (H N i : Nat) (hH : H < 2147483648) (hN : N ≤ 32)
    (hi : i < N) :
    rowRange (mkArgs (N : Int) W (H : Int) i) =
      some (((i * (H / N) : Nat) : Int), ((H / N : Nat) : Int)) := by
  have hb := block_le H N i hi
  have hq : H / N ≤ H := Nat.div_le_self H N
  unfold rowRange mkArgs
  simp only []
  rw [toUnsigned_natCast H (by omega), toUnsigned_natCast N (by omega),
    udiv_of_pos H N (by omega)]
  simp only [Option.bind_eq_bind, Option.some_bind]
  generalize hqd : H / N = q at *
  rw [toSigned_of_lt q (by omega)]
  have hp : isInt ((i : Int) * (q : Int)) := by
    have : ((i * q : Nat) : Int) = (i : Int) * (q : Int) := by push_cast; rfl
    rw [← this]; unfold isInt; omega
  rw [smul_of_isInt _ _ hp]
  simp only [Option.some_bind, Option.pure_def]
  rw [Nat.cast_mul]

end TestThread

/-! ## Lemmas: schedules and dispatch -/

namespace Mandelbrot

theorem toSigned_toUnsigned (x : Int) (h : isInt x) : toSigned (toUnsigned x) = x := by
  unfold isInt at h
  unfold toSigned toUnsigned
  split <;> omega

theorem mandelbrotSerial_zero_rows (width height startRow numRows : Int) (h : numRows ≤ 0)
    (f : Int → Int → Int) (out : List Int) :
    mandelbrotSerial width height startRow numRows f out = out := by
  unfold mandelbrotSerial
  have : numRows.toNat = 0 := by omega
  rw [this]; rfl

theorem length_runBlocks (width height : Int) (f : Int → Int → Int) (rg : Nat → Int × Int)
    (sched : List Nat) (out : List Int) :
    (runBlocks width height f rg sched out).length = out.length := by
  unfold runBlocks
  induction sched generalizing out with
  | nil => rfl
  | cons i rest ih => rw [List.foldl_cons, ih, length_mandelbrotSerial]

theorem getElem?_runBlocks (width height : Int) (hw : 0 < width) (f : Int → Int → Int)
    (rg : Nat → Int × Int) (sched : List Nat) (out : List Int) (k : Nat) :
    (runBlocks width height f rg sched out)[k]? =
      if k < out.length ∧ ∃ i ∈ sched, (rg i).1 ≤ (k : Int) / width ∧
          (k : Int) / width < (rg i).1 + (rg i).2
      then some (f ((k : Int) / width) ((k : Int) % width)) else out[k]? := by
  induction sched generalizing out with
  | nil => simp [runBlocks]
  | cons i rest ih =>
    have hstep : runBlocks width height f rg (i :: rest) out =
        runBlocks width height f rg rest
          (mandelbrotSerial width height (rg i).1 (rg i).2 f out) := rfl
    rw [hstep, ih, length_mandelbrotSerial, getElem?_mandelbrotSerial _ _ _ _ hw]
    by_cases hk : k < out.length
    · by_cases hr : ∃ j ∈ rest, (rg j).1 ≤ (k : Int) / width ∧
          (k : Int) / width < (rg j).1 + (rg j).2
      · have : ∃ j ∈ i :: rest, (rg j).1 ≤ (k : Int) / width ∧
            (k : Int) / width < (rg j).1 + (rg j).2 := by
          obtain ⟨j, hj, hjr⟩ := hr
          exact ⟨j, List.mem_cons_of_mem _ hj, hjr⟩
        rw [if_pos ⟨hk, hr⟩, if_pos ⟨hk, this⟩]
      · rw [if_neg (fun h => hr h.2)]
        by_cases hi : (rg i).1 ≤ (k : Int) / width ∧ (k : Int) / width < (rg i).1 + (rg i).2
        · rw [if_pos ⟨hk, hi⟩, if_pos ⟨hk, i, List.mem_cons_self _ _, hi⟩]
        · have : ¬ ∃ j ∈ i :: rest, (rg j).1 ≤ (k : Int) / width ∧
              (k : Int) / width < (rg j).1 + (rg j).2 := by
            rintro ⟨j, hj, hjr⟩
            rcases List.mem_cons.1 hj with rfl | hj
            · exact hi hjr
            · exact hr ⟨j, hj, hjr⟩
          rw [if_neg (fun h => hi h.2), if_neg (fun h => this h.2)]
    · rw [if_neg (fun h => hk h.1), if_neg (fun h => hk h.1), if_neg (fun h => hk h.1)]

theorem runWorkers_eq (worker : Runner → WorkerArgs → World → Option World)
    (args : List WorkerArgs) (width height : Int) (f : Int → Int → Int)
    (rg : Nat → Int × Int) (sched : List Nat)
    (h : ∀ i ∈ sched, CallsKernel worker args width height f rg i) (w : World) :
    runWorkers worker args sched w =
      some { output := runBlocks width height f rg sched w.output,
             trace := w.trace ++
               sched.map (fun i => Event.kernel (runnerOf i) (rg i).1 (rg i).2) } := by
  induction sched generalizing w with
  | nil => simp [runWorkers, runBlocks]
  | cons i rest ih =>
    obtain ⟨a, ha, hcall⟩ := h i (List.mem_cons_self _ _)
    have hrest : ∀ j ∈ rest, CallsKernel worker args width height f rg j :=
      fun j hj => h j (List.mem_cons_of_mem _ hj)
    simp only [runWorkers, ha, hcall]
    rw [ih hrest]
    simp [runBlocks]

theorem mem_workerIds (numThreads : Int) (hn : 1 ≤ numThreads) (i : Nat) :
    i ∈ workerIds numThreads ↔ (i : Int) < numThreads := by
  unfold workerIds spawnedIds
  simp only [List.mem_cons, List.mem_map, List.mem_range]
  constructor
  · rintro (rfl | ⟨j, hj, rfl⟩)
    · omega
    · omega
  · intro h
    rcases Nat.eq_zero_or_pos i with h0 | h0
    · exact Or.inl h0
    · exact Or.inr ⟨i - 1, by omega, by omega⟩

theorem workerIds_eq_range (numThreads : Int) (hn : 1 ≤ numThreads) :
    workerIds numThreads = List.range numThreads.toNat := by
  unfold workerIds spawnedIds
  obtain ⟨m, hm⟩ : ∃ m, numThreads.toNat = m + 1 := ⟨numThreads.toNat - 1, by omega⟩
  rw [hm, List.range_succ_eq_map]
  simp

theorem getElem?_initArgs (numThreads width height : Int) (i : Nat)
    (hi : (i : Int) < numThreads) :
    (initArgs numThreads width height)[i]? = some (mkArgs numThreads width height i) := by
  unfold initArgs
  rw [List.getElem?_map, List.getElem?_range (by omega)]
  rfl

end Mandelbrot

namespace MandelbrotThread
open Mandelbrot

theorem rowRange_eq (numThreads width height : Int) (i : Nat)
    (hh1 : 1 ≤ height) (hh2 : height < 2147483648)
    (hn2 : numThreads ≤ 32) (hi : (i : Int) < numThreads) :
    rowRange (mkArgs numThreads width height i) = some (remainderToLast height numThreads i) := by
  lift height to Nat using (by omega) with H
  lift numThreads to Nat using (by omega) with N
  have hb := block_le H N i (by omega)
  rw [rowRange_nat width H N i (by omega) (by omega) (by omega)]
  unfold remainderToLast
  refine congrArg some (Prod.ext ?_ ?_)
  · simp only [Nat.cast_mul, Int.natCast_div]
  · simp only []
    by_cases hl : i + 1 = N
    · rw [if_pos hl, if_neg (by omega),
        Nat.cast_sub (Nat.le_trans (Nat.le_add_right _ _) hb)]
      simp only [Nat.cast_mul, Int.natCast_div]
    · rw [if_neg hl, if_pos (by omega)]
      simp only [Int.natCast_div]

theorem callsKernel (numThreads width height : Int) (f : Int → Int → Int) (i : Nat)
    (hw : isInt width) (hh1 : 1 ≤ height) (hh2 : height < 2147483648)
    (hn2 : numThreads ≤ 32) (hi : (i : Int) < numThreads) :
    CallsKernel (workerThreadStart f) (initArgs numThreads width height) width height f
      (remainderToLast height numThreads) i := by
  refine ⟨mkArgs numThreads width height i, getElem?_initArgs _ _ _ _ hi, ?_⟩
  intro r w
  unfold workerThreadStart
  rw [rowRange_eq numThreads width height i hh1 hh2 hn2 hi]
  simp only [Option.bind_eq_bind, Option.some_bind, Option.pure_def, mkArgs]
  rw [toSigned_toUnsigned width hw, toSigned_toUnsigned height (by unfold isInt; omega)]

theorem mandelbrotThread_eq (sched : List Nat) (numThreads width height : Int)
    (f : Int → Int → Int) (w : World)
    (hw : isInt width) (hh1 : 1 ≤ height) (hh2 : height < 2147483648)
    (hn2 : numThreads ≤ 32) (hs : ∀ i ∈ sched, (i : Int) < numThreads) :
    mandelbrotThread sched numThreads width height f w =
      Result.returned
        { output := runBlocks width height f (remainderToLast height numThreads) sched w.output,
          trace := w.trace ++ (spawnedIds numThreads).map Event.spawn ++
            sched.map (fun i => Event.kernel (runnerOf i)
              (remainderToLast height numThreads i).1 (remainderToLast height numThreads i).2) ++
            (spawnedIds numThreads).map Event.join } := by
  unfold mandelbrotThread
  rw [if_neg (by unfold MAX_THREADS; omega)]
  simp only []
  rw [runWorkers_eq (workerThreadStart f) _ width height f (remainderToLast height numThreads)
    sched (fun i hi => callsKernel numThreads width height f i hw hh1 hh2 hn2 (hs i hi))]

end MandelbrotThread

namespace TestThread
open Mandelbrot

theorem rowRange_trunc (numThreads width height : Int) (i : Nat)
    (hh1 : 1 ≤ height) (hh2 : height < 2147483648)
    (hn2 : numThreads ≤ 32) (hi : (i : Int) < numThreads) :
    rowRange (mkArgs numThreads width height i) = some (truncatedTail height numThreads i) := by
  lift height to Nat using (by omega) with H
  lift numThreads to Nat using (by omega) with N
  rw [rowRange_trunc_nat width H N i (by omega) (by omega) (by omega)]
  unfold truncatedTail
  refine congrArg some (Prod.ext ?_ ?_)
  · simp only [Nat.cast_mul, Int.natCast_div]
  · simp only [Int.natCast_div]

theorem callsKernel_trunc (numThreads width height : Int) (f : Int → Int → Int) (i : Nat)
    (hw : isInt width) (hh1 : 1 ≤ height) (hh2 : height < 2147483648)
    (hn2 : numThreads ≤ 32) (hi : (i : Int) < numThreads) :
    CallsKernel (workerThreadStart f) (initArgs numThreads width height) width height f
      (truncatedTail height numThreads) i := by
  refine ⟨mkArgs numThreads width height i, getElem?_initArgs _ _ _ _ hi, ?_⟩
  intro r w
  unfold workerThreadStart
  rw [rowRange_trunc numThreads width height i hh1 hh2 hn2 hi]
  have hb : (i : Int) * (height / numThreads) + height / numThreads ≤ height := by
    lift height to Nat using (by omega) with H
    lift numThreads to Nat using (by omega) with N
    have := block_le H N i (by omega)
    have h2 : ((i * (H / N) + H / N : Nat) : Int) ≤ (H : Int) := by exact_mod_cast this
    push_cast at h2
    exact h2
  have hq : 0 ≤ height / numThreads := Int.ediv_nonneg (by omega) (by omega)
  have hp : 0 ≤ (i : Int) * (height / numThreads) := Int.mul_nonneg (by omega) hq
  simp only [Option.bind_eq_bind, Option.some_bind, Option.pure_def, mkArgs, truncatedTail]
  rw [sadd_of_isInt _ _ (by unfold isInt; omega)]
  simp only [Option.some_bind]
  rw [ssub_of_isInt _ _ (by unfold isInt; omega)]
  simp only [Option.some_bind]
  rw [toSigned_toUnsigned width hw, toSigned_toUnsigned height (by unfold isInt; omega)]

theorem mandelbrotThread_trunc (sched : List Nat) (numThreads width height : Int)
    (f : Int → Int → Int) (w : World)
    (hw : isInt width) (hh1 : 1 ≤ height) (hh2 : height < 2147483648)
    (hn2 : numThreads ≤ 32) (hs : ∀ i ∈ sched, (i : Int) < numThreads) :
    mandelbrotThread sched numThreads width height f w =
      Result.returned
        { output := runBlocks width height f (truncatedTail height numThreads) sched w.output,
          trace := w.trace ++ (spawnedIds numThreads).map Event.spawn ++
            sched.map (fun i => Event.kernel (runnerOf i)
              (truncatedTail height numThreads i).1 (truncatedTail height numThreads i).2) ++
            (spawnedIds numThreads).map Event.join } := by
  unfold mandelbrotThread
  rw [if_neg (by unfold MAX_THREADS; omega)]
  simp only []
  rw [runWorkers_eq (workerThreadStart f) _ width height f (truncatedTail height numThreads)
    sched (fun i hi => callsKernel_trunc numThreads width height f i hw hh1 hh2 hn2 (hs i hi))]

end TestThread

/-! ## Lemmas: coverage of the two policies -/

namespace Mandelbrot

theorem inRange_some (s c r : Int) : inRange (some (s, c)) r ↔ s ≤ r ∧ r < s + c := Iff.rfl

/-- The quotient `height / numThreads` is non-negative and `numThreads` blocks fit. -/
theorem quot_facts (height numThreads : Int) (hh : 0 ≤ height) (hn : 1 ≤ numThreads) :
    0 ≤ height / numThreads ∧ numThreads * (height / numThreads) ≤ height ∧
      height < numThreads * (height / numThreads) + numThreads := by
  have h1 := Int.ediv_add_emod height numThreads
  have h2 := Int.emod_nonneg height (show numThreads ≠ 0 by omega)
  have h3 := Int.emod_lt_of_pos height (show 0 < numThreads by omega)
  refine ⟨Int.ediv_nonneg hh (by omega), by omega, by omega⟩

theorem mul_quot_mono (a b q : Int) (hab : a ≤ b) (hq : 0 ≤ q) : a * q ≤ b * q :=
  Int.mul_le_mul_of_nonneg_right hab hq

theorem remainderToLast_within (height numThreads : Int) (i : Nat) (r : Int)
    (hh : 0 ≤ height) (hn : 1 ≤ numThreads)
    (hr : inRange (some (remainderToLast height numThreads i)) r) : 0 ≤ r ∧ r < height := by
  obtain ⟨hq0, hq1, _⟩ := quot_facts height numThreads hh hn
  unfold remainderToLast at hr
  rw [inRange_some] at hr
  have hp : 0 ≤ (i : Int) * (height / numThreads) := Int.mul_nonneg (by omega) hq0
  by_cases hl : (i : Int) < numThreads - 1
  · rw [if_pos hl] at hr
    have h1 := mul_quot_mono ((i : Int) + 1) numThreads _ (by omega) hq0
    rw [Int.add_mul, Int.one_mul] at h1
    omega
  · rw [if_neg hl] at hr
    omega

theorem remainderToLast_covers (height numThreads : Int) (r : Int)
    (hh : 0 ≤ height) (hn : 1 ≤ numThreads) (hr0 : 0 ≤ r) (hr : r < height) :
    ∃ i : Nat, (i : Int) < numThreads ∧
      inRange (some (remainderToLast height numThreads i)) r := by
  obtain ⟨hq0, hq1, _⟩ := quot_facts height numThreads hh hn
  by_cases hlast : (numThreads - 1) * (height / numThreads) ≤ r
  · refine ⟨(numThreads - 1).toNat, by omega, ?_⟩
    have hc : (((numThreads - 1).toNat : Nat) : Int) = numThreads - 1 := by omega
    unfold remainderToLast
    rw [inRange_some, hc, if_neg (by omega)]
    omega
  · have hqpos : 0 < height / numThreads := by
      rcases lt_or_ge 0 (height / numThreads) with h | h
      · exact h
      · exfalso
        have : height / numThreads = 0 := by omega
        rw [this, Int.mul_zero] at hlast
        omega
    obtain ⟨ha0, ha1, ha2⟩ := quot_facts r (height / numThreads) hr0 (by omega)
    have halt : r / (height / numThreads) < numThreads - 1 := by
      rcases lt_or_ge (r / (height / numThreads)) (numThreads - 1) with h | h
      · exact h
      · exfalso
        have := mul_quot_mono _ _ (height / numThreads) h hq0
        rw [Int.mul_comm (r / (height / numThreads))] at this
        omega
    refine ⟨(r / (height / numThreads)).toNat, by omega, ?_⟩
    have hc : (((r / (height / numThreads)).toNat : Nat) : Int) = r / (height / numThreads) := by
      omega
    unfold remainderToLast
    rw [inRange_some, hc, if_pos halt, Int.mul_comm]
    omega

theorem remainderToLast_unique_aux (height numThreads : Int) (i j : Nat) (r : Int)
    (hh : 0 ≤ height) (hn : 1 ≤ numThreads) (hj : (j : Int) < numThreads) (hij : i < j)
    (hri : inRange (some (remainderToLast height numThreads i)) r)
    (hrj : inRange (some (remainderToLast height numThreads j)) r) : False := by
  obtain ⟨hq0, _, _⟩ := quot_facts height numThreads hh hn
  unfold remainderToLast at hri hrj
  rw [inRange_some] at hri hrj
  rw [if_pos (by omega)] at hri
  have h1 := mul_quot_mono ((i : Int) + 1) (j : Int) (height / numThreads) (by omega) hq0
  rw [Int.add_mul, Int.one_mul] at h1
  omega

theorem remainderToLast_unique (height numThreads : Int) (i j : Nat) (r : Int)
    (hh : 0 ≤ height) (hn : 1 ≤ numThreads)
    (hi : (i : Int) < numThreads) (hj : (j : Int) < numThreads)
    (hri : inRange (some (remainderToLast height numThreads i)) r)
    (hrj : inRange (some (remainderToLast height numThreads j)) r) : i = j := by
  rcases Nat.lt_trichotomy i j with h | h | h
  · exact (remainderToLast_unique_aux height numThreads i j r hh hn hj h hri hrj).elim
  · exact h
  · exact (remainderToLast_unique_aux height numThreads j i r hh hn hi h hrj hri).elim

/-- The result of a sequence of kernel calls depends only on which workers are in it. -/
theorem runBlocks_congr (width height : Int) (hw : 0 < width) (f : Int → Int → Int)
    (rg : Nat → Int × Int) (s1 s2 : List Nat) (h : ∀ i, i ∈ s1 ↔ i ∈ s2) (out : List Int) :
    runBlocks width height f rg s1 out = runBlocks width height f rg s2 out := by
  apply List.ext_getElem?
  intro k
  rw [getElem?_runBlocks _ _ hw, getElem?_runBlocks _ _ hw]
  have : (∃ i ∈ s1, (rg i).1 ≤ (k : Int) / width ∧ (k : Int) / width < (rg i).1 + (rg i).2) ↔
      (∃ i ∈ s2, (rg i).1 ≤ (k : Int) / width ∧ (k : Int) / width < (rg i).1 + (rg i).2) := by
    constructor
    · rintro ⟨i, hi, hr⟩; exact ⟨i, (h i).1 hi, hr⟩
    · rintro ⟨i, hi, hr⟩; exact ⟨i, (h i).2 hi, hr⟩
  simp only [this]

/-- Under the remainder-to-last policy the kernel calls of all workers amount to one
kernel call over the rows `[0, height)`. -/
theorem runBlocks_remainderToLast (numThreads width height : Int) (hw : 0 < width)
    (hh : 0 ≤ height) (hn : 1 ≤ numThreads) (f : Int → Int → Int) (sched : List Nat)
    (hs : ∀ i, i ∈ sched ↔ (i : Int) < numThreads) (out : List Int) :
    runBlocks width height f (remainderToLast height numThreads) sched out =
      mandelbrotSerial width height 0 height f out := by
  apply List.ext_getElem?
  intro k
  rw [getElem?_runBlocks _ _ hw, getElem?_mandelbrotSerial _ _ _ _ hw]
  have : (∃ i ∈ sched, (remainderToLast height numThreads i).1 ≤ (k : Int) / width ∧
        (k : Int) / width <
          (remainderToLast height numThreads i).1 + (remainderToLast height numThreads i).2) ↔
      (0 ≤ (k : Int) / width ∧ (k : Int) / width < 0 + height) := by
    constructor
    · rintro ⟨i, _, hr⟩
      have := remainderToLast_within height numThreads i ((k : Int) / width) hh hn hr
      omega
    · rintro ⟨h0, h1⟩
      obtain ⟨i, hi, hr⟩ :=
        remainderToLast_covers height numThreads ((k : Int) / width) hh hn h0 (by omega)
      exact ⟨i, (hs i).2 hi, hr⟩
  simp only [this]

theorem truncatedTail_covers_iff (height numThreads : Int) (x : Int)
    (hh : 0 ≤ height) (hn : 1 ≤ numThreads) :
    (∃ i : Nat, (i : Int) < numThreads ∧ (truncatedTail height numThreads i).1 ≤ x ∧
        x < (truncatedTail height numThreads i).1 + (truncatedTail height numThreads i).2) ↔
      (0 ≤ x ∧ x < numThreads * (height / numThreads)) := by
  obtain ⟨hq0, _, _⟩ := quot_facts height numThreads hh hn
  unfold truncatedTail
  simp only []
  constructor
  · rintro ⟨i, hi, h1, h2⟩
    have hp : 0 ≤ (i : Int) * (height / numThreads) := Int.mul_nonneg (by omega) hq0
    have h3 := mul_quot_mono ((i : Int) + 1) numThreads _ (by omega) hq0
    rw [Int.add_mul, Int.one_mul] at h3
    omega
  · rintro ⟨h0, h1⟩
    have hqpos : 0 < height / numThreads := by
      rcases lt_or_ge 0 (height / numThreads) with h | h
      · exact h
      · exfalso
        have : height / numThreads = 0 := by omega
        rw [this, Int.mul_zero] at h1
        omega
    obtain ⟨ha0, ha1, ha2⟩ := quot_facts x (height / numThreads) h0 (by omega)
    have halt : x / (height / numThreads) < numThreads := by
      rcases lt_or_ge (x / (height / numThreads)) numThreads with h | h
      · exact h
      · exfalso
        have := mul_quot_mono _ _ (height / numThreads) h hq0
        rw [Int.mul_comm (x / (height / numThreads))] at this
        omega
    refine ⟨(x / (height / numThreads)).toNat, by omega, ?_⟩
    have hc : (((x / (height / numThreads)).toNat : Nat) : Int) = x / (height / numThreads) := by
      omega
    rw [hc, Int.mul_comm]
    omega

/-- Under the truncated-tail policy the kernel calls of all workers write the rows
`[0, numThreads * (height / numThreads))` and nothing else. -/
theorem getElem?_runBlocks_truncatedTail (numThreads width height : Int) (hw : 0 < width)
    (hh : 0 ≤ height) (hn : 1 ≤ numThreads) (f : Int → Int → Int) (sched : List Nat)
    (hs : ∀ i, i ∈ sched ↔ (i : Int) < numThreads) (out : List Int) (k : Nat) :
    (runBlocks width height f (truncatedTail height numThreads) sched out)[k]? =
      if k < out.length ∧ (k : Int) / width < numThreads * (height / numThreads)
      then some (f ((k : Int) / width) ((k : Int) % width)) else out[k]? := by
  rw [getElem?_runBlocks _ _ hw]
  have hk0 : 0 ≤ (k : Int) / width := Int.ediv_nonneg (by omega) (by omega)
  have : (∃ i ∈ sched, (truncatedTail height numThreads i).1 ≤ (k : Int) / width ∧
        (k : Int) / width <
          (truncatedTail height numThreads i).1 + (truncatedTail height numThreads i).2) ↔
      ((k : Int) / width < numThreads * (height / numThreads)) := by
    have h := truncatedTail_covers_iff height numThreads ((k : Int) / width) hh hn
    constructor
    · rintro ⟨i, hi, hr⟩
      exact (h.1 ⟨i, (hs i).1 hi, hr⟩).2
    · intro hx
      obtain ⟨i, hi, hr⟩ := h.2 ⟨hk0, hx⟩
      exact ⟨i, (hs i).2 hi, hr⟩
  simp only [this]

theorem perm_workerIds_mem (numThreads : Int) (hn : 1 ≤ numThreads) (sched : List Nat)
    (hs : sched.Perm (workerIds numThreads)) (i : Nat) :
    i ∈ sched ↔ (i : Int) < numThreads := by
  rw [hs.mem_iff, mem_workerIds numThreads hn]

/-- Kernel calls without rows leave the buffer as it is. -/
theorem runBlocks_no_rows (width height : Int) (f : Int → Int → Int) (rg : Nat → Int × Int)
    (sched : List Nat) (h : ∀ i ∈ sched, (rg i).2 ≤ 0) (out : List Int) :
    runBlocks width height f rg sched out = out := by
  induction sched generalizing out with
  | nil => rfl
  | cons i rest ih =>
    have hstep : runBlocks width height f rg (i :: rest) out =
        runBlocks width height f rg rest
          (mandelbrotSerial width height (rg i).1 (rg i).2 f out) := rfl
    rw [hstep, mandelbrotSerial_zero_rows _ _ _ _ (h i (List.mem_cons_self _ _)),
      ih (fun j hj => h j (List.mem_cons_of_mem _ hj))]

end Mandelbrot

namespace TestThread
open Mandelbrot

theorem passed_eq_true_iff (a b : List Int) (n : Nat) :
    passed a b n = true ↔ ∀ k : Nat, k < n → a[k]? = b[k]? := by
  unfold passed
  rw [List.all_eq_true]
  constructor
  · intro h k hk
    exact of_decide_eq_true (h k (List.mem_range.2 hk))
  · intro h k hk
    exact decide_eq_true (h k (List.mem_range.1 hk))

/-- The outcome of one test run for the pixel function that is `1` everywhere: the check
passes exactly when `numThreads` divides `height`. -/
theorem testOne_ones (sched : List Nat) (numThreads width height : Int) (fresh : List Int)
    (hw1 : 1 ≤ width) (hw2 : width < 2147483648)
    (hh1 : 1 ≤ height) (hh2 : height < 2147483648)
    (hn1 : 1 ≤ numThreads) (hn2 : numThreads ≤ 32)
    (hs : sched.Perm (workerIds numThreads))
    (hfresh : fresh.length = (width * height).toNat) :
    testOne sched numThreads width height (fun _ _ => 1)
        (mandelbrotSerial width height 0 height (fun _ _ => 1) fresh) =
      some (decide (height % numThreads = 0)) := by
  have hmem := perm_workerIds_mem numThreads hn1 sched hs
  have hwpos : 0 < width := by omega
  obtain ⟨hq0, hq1, _⟩ := quot_facts height numThreads (by omega) hn1
  have hdm := Int.ediv_add_emod height numThreads
  have hrem := Int.emod_nonneg height (show numThreads ≠ 0 by omega)
  have hN : (((width * height).toNat : Nat) : Int) = width * height :=
    Int.toNat_of_nonneg (Int.mul_nonneg (by omega) (by omega))
  unfold testOne
  simp only []
  rw [mandelbrotThread_trunc sched numThreads width height _ _ (by unfold isInt; omega) hh1 hh2 hn2
    (fun i hi => (hmem i).1 hi)]
  simp only []
  refine congrArg some ?_
  have hser : ∀ k : Nat, k < (width * height).toNat →
      (mandelbrotSerial width height 0 height (fun _ _ => 1) fresh)[k]? = some 1 := by
    intro k hk
    have hkl : (k : Int) / width < height :=
      Int.ediv_lt_of_lt_mul hwpos (by rw [Int.mul_comm]; omega)
    have hk0 : 0 ≤ (k : Int) / width := Int.ediv_nonneg (by omega) (by omega)
    rw [getElem?_mandelbrotSerial _ _ _ _ hwpos, if_pos ⟨by omega, by omega, by omega⟩]
  have hpar : ∀ k : Nat, k < (width * height).toNat →
      (runBlocks width height (fun _ _ => 1) (truncatedTail height numThreads) sched
        (List.replicate (width * height).toNat 0))[k]? =
      if (k : Int) / width < numThreads * (height / numThreads) then some 1 else some 0 := by
    intro k hk
    rw [getElem?_runBlocks_truncatedTail numThreads width height hwpos (by omega) hn1 _ sched
      hmem, List.length_replicate]
    by_cases hc : (k : Int) / width < numThreads * (height / numThreads)
    · rw [if_pos ⟨hk, hc⟩, if_pos hc]
    · rw [if_neg (fun h => hc h.2), if_neg hc, List.getElem?_replicate, if_pos hk]
  by_cases hdiv : height % numThreads = 0
  · rw [decide_eq_true hdiv, passed_eq_true_iff]
    intro k hk
    have hkl : (k : Int) / width < height :=
      Int.ediv_lt_of_lt_mul hwpos (by rw [Int.mul_comm]; omega)
    rw [hser k hk, hpar k hk, if_pos (by omega)]
  · rw [decide_eq_false hdiv]
    apply Bool.eq_false_iff.2
    intro hp
    rw [passed_eq_true_iff] at hp
    have hlt : numThreads * (height / numThreads) < height := by omega
    have hx0 : 0 ≤ numThreads * (height / numThreads) * width :=
      Int.mul_nonneg (Int.mul_nonneg (by omega) hq0) (by omega)
    have hxl : numThreads * (height / numThreads) * width < width * height := by
      rw [Int.mul_comm width height]
      exact Int.mul_lt_mul_of_pos_right hlt hwpos
    have hk : (numThreads * (height / numThreads) * width).toNat < (width * height).toNat := by
      omega
    have hkc : (((numThreads * (height / numThreads) * width).toNat : Nat) : Int) =
        numThreads * (height / numThreads) * width := Int.toNat_of_nonneg hx0
    have h := hp _ hk
    rw [hser _ hk, hpar _ hk, hkc, Int.mul_ediv_cancel _ (by omega), if_neg (by omega)] at h
    exact absurd h (by decide)

end TestThread

/-! ## The claims -/

namespace Mandelbrot

/-- C1 (coverage, `mandelbrotThread.cpp`): for a height `1 ≤ height` of type `int` and
`1 ≤ numThreads ≤ 32`, every worker computes a row range, every row `0 ≤ r < height` lies
in the range of exactly one worker, no range contains a row outside `[0, height)`, and when
`numThreads > height` every worker but the last has an empty range. -/
theorem coverage (numThreads width height : Int)
    (hh1 : 1 ≤ height) (hh2 : height < 2147483648)
    (hn1 : 1 ≤ numThreads) (hn2 : numThreads ≤ 32) :
    (∀ i : Nat, (i : Int) < numThreads →
      (MandelbrotThread.rowRange (mkArgs numThreads width height i)).isSome = true) ∧
    (∀ r : Int, 0 ≤ r → r < height →
      ∃! i : Nat, (i : Int) < numThreads ∧
        inRange (MandelbrotThread.rowRange (mkArgs numThreads width height i)) r) ∧
    (∀ (i : Nat) (r : Int), (i : Int) < numThreads →
      inRange (MandelbrotThread.rowRange (mkArgs numThreads width height i)) r →
      0 ≤ r ∧ r < height) ∧
    (height < numThreads → ∀ (i : Nat) (r : Int), (i : Int) < numThreads - 1 →
      ¬ inRange (MandelbrotThread.rowRange (mkArgs numThreads width height i)) r) := by
  have hrg : ∀ i : Nat, (i : Int) < numThreads →
      MandelbrotThread.rowRange (mkArgs numThreads width height i) =
        some (remainderToLast height numThreads i) :=
    fun i hi => MandelbrotThread.rowRange_eq numThreads width height i hh1 hh2 hn2 hi
  refine ⟨?_, ?_, ?_, ?_⟩
  · intro i hi
    rw [hrg i hi]; rfl
  · intro r hr0 hr
    obtain ⟨i, hi, hri⟩ := remainderToLast_covers height numThreads r (by omega) hn1 hr0 hr
    refine ⟨i, ⟨hi, by rw [hrg i hi]; exact hri⟩, ?_⟩
    rintro j ⟨hj, hrj⟩
    rw [hrg j hj] at hrj
    exact remainderToLast_unique height numThreads j i r (by omega) hn1 hj hi hrj hri
  · intro i r hi hri
    rw [hrg i hi] at hri
    exact remainderToLast_within height numThreads i r (by omega) hn1 hri
  · intro hlt i r hi hri
    rw [hrg i (by omega)] at hri
    unfold remainderToLast at hri
    rw [inRange_some, if_pos hi, Int.ediv_eq_zero_of_lt (by omega) hlt] at hri
    omega

/-- Witness of C1 at `height = 10`, `numThreads = 3`: row 7 has exactly one owner. -/
theorem coverage_witness :
    (1 : Int) ≤ 10 ∧ (10 : Int) < 2147483648 ∧ (1 : Int) ≤ 3 ∧ (3 : Int) ≤ 32 ∧
      ∃! i : Nat, (i : Int) < 3 ∧ inRange (MandelbrotThread.rowRange (mkArgs 3 1 10 i)) 7 :=
  ⟨by decide, by decide, by decide, by decide,
    (coverage 3 1 10 (by decide) (by decide) (by decide) (by decide)).2.1 7
      (by decide) (by decide)⟩

/-- C2 (equivalence, `mandelbrotThread.cpp`): for `int` values `width ≥ 1`, `height ≥ 1`,
`1 ≤ numThreads ≤ 32`, every pixel function, every initial buffer of length
`width * height` and every schedule of the workers, `mandelbrotThread` returns and its
buffer equals the buffer of the single kernel call over the rows `[0, height)`. -/
theorem threaded_eq_serial (sched : List Nat) (numThreads width height : Int)
    (f : Int → Int → Int) (w : World)
    (hw1 : 1 ≤ width) (hw2 : width < 2147483648)
    (hh1 : 1 ≤ height) (hh2 : height < 2147483648)
    (hn1 : 1 ≤ numThreads) (hn2 : numThreads ≤ 32)
    (_hlen : w.output.length = (width * height).toNat)
    (hs : sched.Perm (workerIds numThreads)) :
    (MandelbrotThread.mandelbrotThread sched numThreads width height f w).output? =
      some (mandelbrotSerial width height 0 height f w.output) := by
  have hmem := perm_workerIds_mem numThreads hn1 sched hs
  rw [MandelbrotThread.mandelbrotThread_eq sched numThreads width height f w
    (by unfold isInt; omega) hh1 hh2 hn2 (fun i hi => (hmem i).1 hi)]
  simp only [Result.output?]
  rw [runBlocks_remainderToLast numThreads width height (by omega) (by omega) hn1 f sched hmem]

/-- Witness of C2: a `2 × 5` image, three threads, schedule `1, 0, 2`. -/
theorem threaded_eq_serial_witness :
    (1 : Int) ≤ 2 ∧ (2 : Int) < 2147483648 ∧ (1 : Int) ≤ 5 ∧ (5 : Int) < 2147483648 ∧
    (1 : Int) ≤ 3 ∧ (3 : Int) ≤ 32 ∧
    (World.mk (List.replicate 10 0) []).output.length = ((2 : Int) * 5).toNat ∧
    List.Perm [1, 0, 2] (workerIds 3) ∧
    (MandelbrotThread.mandelbrotThread [1, 0, 2] 3 2 5 (fun r c => 10 * r + c)
        (World.mk (List.replicate 10 0) [])).output? =
      some (mandelbrotSerial 2 5 0 5 (fun r c => 10 * r + c) (List.replicate 10 0)) :=
  ⟨by decide, by decide, by decide, by decide, by decide, by decide, by decide, by decide,
    threaded_eq_serial [1, 0, 2] 3 2 5 (fun r c => 10 * r + c) (World.mk (List.replicate 10 0) [])
      (by decide) (by decide) (by decide) (by decide) (by decide) (by decide) (by decide)
      (by decide)⟩

/-- C4 (fail-fast on the worker cap, both files): for every `numThreads ≥ 1` the call is
rejected exactly when `numThreads > 32`, and a rejected call ends with `exit(1)` in the
world it was given: the buffer is unchanged and the log has no kernel call. -/
theorem fail_fast (sched : List Nat) (numThreads width height : Int)
    (f : Int → Int → Int) (w : World) (_hn1 : 1 ≤ numThreads) :
    ((MandelbrotThread.mandelbrotThread sched numThreads width height f w).rejected = true ↔
      32 < numThreads) ∧
    ((TestThread.mandelbrotThread sched numThreads width height f w).rejected = true ↔
      32 < numThreads) ∧
    (32 < numThreads →
      MandelbrotThread.mandelbrotThread sched numThreads width height f w = Result.exited 1 w ∧
      TestThread.mandelbrotThread sched numThreads width height f w = Result.exited 1 w) := by
  unfold MandelbrotThread.mandelbrotThread TestThread.mandelbrotThread MAX_THREADS
  by_cases h : numThreads > 32
  · rw [if_pos h, if_pos h]
    exact ⟨⟨fun _ => h, fun _ => rfl⟩, ⟨fun _ => h, fun _ => rfl⟩, fun _ => ⟨rfl, rfl⟩⟩
  · simp only [if_neg h]
    refine ⟨⟨fun hr => ?_, fun h2 => absurd h2 h⟩, ⟨fun hr => ?_, fun h2 => absurd h2 h⟩,
      fun h2 => absurd h2 h⟩
    · split at hr <;> simp [Result.rejected] at hr
    · split at hr <;> simp [Result.rejected] at hr

/-- Witness of C4: 33 threads are rejected and the buffer is untouched. -/
theorem fail_fast_witness :
    (1 : Int) ≤ 33 ∧
      MandelbrotThread.mandelbrotThread (workerIds 33) 33 2 2 (fun _ _ => 1)
        (World.mk [0, 0, 0, 0] []) = Result.exited 1 (World.mk [0, 0, 0, 0] []) ∧
      TestThread.mandelbrotThread (workerIds 33) 33 2 2 (fun _ _ => 1)
        (World.mk [0, 0, 0, 0] []) = Result.exited 1 (World.mk [0, 0, 0, 0] []) :=
  ⟨by decide,
    (fail_fast (workerIds 33) 33 2 2 (fun _ _ => 1) (World.mk [0, 0, 0, 0] [])
      (by decide)).2.2 (by decide)⟩

/-- C5 (remainder-to-last policy, `mandelbrotThread.cpp`): with `q = height / numThreads`,
`workerThreadStart` of thread `i` calls the kernel once, with `startRow = i * q` and
`numRows = q` for `i < numThreads - 1`, and with `startRow = (numThreads - 1) * q` and
`numRows = height - (numThreads - 1) * q` for `i = numThreads - 1`. -/
theorem remainder_to_last (numThreads width height : Int) (i : Nat)
    (f : Int → Int → Int) (by_ : Runner) (w : World)
    (hh1 : 1 ≤ height) (hh2 : height < 2147483648)
    (_hn1 : 1 ≤ numThreads) (hn2 : numThreads ≤ 32) (hi : (i : Int) < numThreads) :
    (MandelbrotThread.workerThreadStart f by_ (mkArgs numThreads width height i) w).map
        World.trace =
      some (w.trace ++
        [if (i : Int) < numThreads - 1
         then Event.kernel by_ ((i : Int) * (height / numThreads)) (height / numThreads)
         else Event.kernel by_ ((numThreads - 1) * (height / numThreads))
                (height - (numThreads - 1) * (height / numThreads))]) := by
  unfold MandelbrotThread.workerThreadStart
  rw [MandelbrotThread.rowRange_eq numThreads width height i hh1 hh2 hn2 hi]
  simp only [Option.bind_eq_bind, Option.some_bind, Option.pure_def, Option.map_some',
    remainderToLast]
  by_cases hl : (i : Int) < numThreads - 1
  · simp only [if_pos hl]
  · have he : (i : Int) = numThreads - 1 := by omega
    rw [if_neg hl, if_neg hl, he]

/-- Witness of C5 at `height = 10`, `numThreads = 3`: the kernel calls are `(0, 3)`,
`(3, 3)` and `(6, 4)`, the ranges `[0,3)`, `[3,6)`, `[6,10)`. -/
theorem remainder_to_last_witness :
    (1 : Int) ≤ 10 ∧ (10 : Int) < 2147483648 ∧ (1 : Int) ≤ 3 ∧ (3 : Int) ≤ 32 ∧
    ((MandelbrotThread.workerThreadStart (fun _ _ => 1) Runner.caller (mkArgs 3 1 10 0)
        (World.mk [] [])).map World.trace = some [Event.kernel Runner.caller 0 3]) ∧
    ((MandelbrotThread.workerThreadStart (fun _ _ => 1) (Runner.spawned 1) (mkArgs 3 1 10 1)
        (World.mk [] [])).map World.trace = some [Event.kernel (Runner.spawned 1) 3 3]) ∧
    ((MandelbrotThread.workerThreadStart (fun _ _ => 1) (Runner.spawned 2) (mkArgs 3 1 10 2)
        (World.mk [] [])).map World.trace = some [Event.kernel (Runner.spawned 2) 6 4]) :=
  ⟨by decide, by decide, by decide, by decide,
    remainder_to_last 3 1 10 0 (fun _ _ => 1) Runner.caller (World.mk [] [])
      (by decide) (by decide) (by decide) (by decide) (by decide),
    remainder_to_last 3 1 10 1 (fun _ _ => 1) (Runner.spawned 1) (World.mk [] [])
      (by decide) (by decide) (by decide) (by decide) (by decide),
    remainder_to_last 3 1 10 2 (fun _ _ => 1) (Runner.spawned 2) (World.mk [] [])
      (by decide) (by decide) (by decide) (by decide) (by decide)⟩

/-- C8 (single worker, both files): with `numThreads = 1` the run logs no spawn and no
join, only one kernel call, made by the calling thread with `startRow = 0` and
`numRows = height`, and the buffer is the one of the sequential call over all rows. -/
theorem single_worker (sched : List Nat) (width height : Int) (f : Int → Int → Int)
    (w : World) (hw : isInt width) (hh1 : 1 ≤ height) (hh2 : height < 2147483648)
    (hs : sched.Perm (workerIds 1)) :
    MandelbrotThread.mandelbrotThread sched 1 width height f w =
      Result.returned { output := mandelbrotSerial width height 0 height f w.output,
                        trace := w.trace ++ [Event.kernel Runner.caller 0 height] } ∧
    TestThread.mandelbrotThread sched 1 width height f w =
      Result.returned { output := mandelbrotSerial width height 0 height f w.output,
                        trace := w.trace ++ [Event.kernel Runner.caller 0 height] } := by
  have hsched : sched = [0] := List.perm_singleton.1 hs
  subst hsched
  have hmem : ∀ i ∈ [0], ((i : Nat) : Int) < 1 := by
    intro i hi
    rw [List.mem_singleton] at hi
    omega
  constructor
  · rw [MandelbrotThread.mandelbrotThread_eq [0] 1 width height f w hw hh1 hh2 (by omega) hmem]
    simp [runBlocks, remainderToLast, spawnedIds, runnerOf]
  · rw [TestThread.mandelbrotThread_trunc [0] 1 width height f w hw hh1 hh2 (by omega) hmem]
    simp [runBlocks, truncatedTail, spawnedIds, runnerOf]

/-- Witness of C8: a `2 × 3` image with one thread. -/
theorem single_worker_witness :
    isInt 2 ∧ (1 : Int) ≤ 3 ∧ (3 : Int) < 2147483648 ∧ List.Perm [0] (workerIds 1) ∧
    MandelbrotThread.mandelbrotThread [0] 1 2 3 (fun r c => r + c) (World.mk [9, 9, 9, 9, 9, 9] [])
      = Result.returned { output := mandelbrotSerial 2 3 0 3 (fun r c => r + c) [9, 9, 9, 9, 9, 9],
                          trace := [] ++ [Event.kernel Runner.caller 0 3] } ∧
    TestThread.mandelbrotThread [0] 1 2 3 (fun r c => r + c) (World.mk [9, 9, 9, 9, 9, 9] [])
      = Result.returned { output := mandelbrotSerial 2 3 0 3 (fun r c => r + c) [9, 9, 9, 9, 9, 9],
                          trace := [] ++ [Event.kernel Runner.caller 0 3] } :=
  ⟨by decide, by decide, by decide, by decide,
    single_worker [0] 2 3 (fun r c => r + c) (World.mk [9, 9, 9, 9, 9, 9] [])
      (by decide) (by decide) (by decide) (by decide)⟩

/-- C9 (order independence, `mandelbrotThread.cpp`): running the worker invocations in any
permutation of the thread ids `0 .. numThreads-1` returns the same buffer as running them
in the order `0, 1, ..., numThreads-1`. -/
theorem order_independent (sched : List Nat) (numThreads width height : Int)
    (f : Int → Int → Int) (w : World)
    (hw1 : 1 ≤ width) (hw2 : width < 2147483648)
    (hh1 : 1 ≤ height) (hh2 : height < 2147483648)
    (_hn1 : 1 ≤ numThreads) (hn2 : numThreads ≤ 32)
    (_hlen : w.output.length = (width * height).toNat)
    (hs : sched.Perm (List.range numThreads.toNat)) :
    ∃ buf : List Int,
      (MandelbrotThread.mandelbrotThread sched numThreads width height f w).output? = some buf ∧
      (MandelbrotThread.mandelbrotThread (List.range numThreads.toNat) numThreads width height
        f w).output? = some buf := by
  have hmem : ∀ i, i ∈ sched ↔ i ∈ List.range numThreads.toNat := fun i => hs.mem_iff
  have hlt : ∀ i ∈ List.range numThreads.toNat, ((i : Nat) : Int) < numThreads := by
    intro i hi
    rw [List.mem_range] at hi
    omega
  refine ⟨runBlocks width height f (remainderToLast height numThreads)
    (List.range numThreads.toNat) w.output, ?_, ?_⟩
  · rw [MandelbrotThread.mandelbrotThread_eq sched numThreads width height f w
      (by unfold isInt; omega) hh1 hh2 hn2 (fun i hi => hlt i ((hmem i).1 hi))]
    simp only [Result.output?]
    rw [runBlocks_congr width height (by omega) f _ sched _ hmem]
  · rw [MandelbrotThread.mandelbrotThread_eq _ numThreads width height f w
      (by unfold isInt; omega) hh1 hh2 hn2 hlt]
    simp only [Result.output?]

/-- Witness of C9: a `2 × 5` image, three threads, schedule `2, 0, 1`. -/
theorem order_independent_witness :
    (1 : Int) ≤ 2 ∧ (2 : Int) < 2147483648 ∧ (1 : Int) ≤ 5 ∧ (5 : Int) < 2147483648 ∧
    (1 : Int) ≤ 3 ∧ (3 : Int) ≤ 32 ∧
    (World.mk (List.replicate 10 0) []).output.length = ((2 : Int) * 5).toNat ∧
    List.Perm [2, 0, 1] (List.range (3 : Int).toNat) ∧
    ∃ buf : List Int,
      (MandelbrotThread.mandelbrotThread [2, 0, 1] 3 2 5 (fun r c => 10 * r + c)
        (World.mk (List.replicate 10 0) [])).output? = some buf ∧
      (MandelbrotThread.mandelbrotThread (List.range (3 : Int).toNat) 3 2 5
        (fun r c => 10 * r + c) (World.mk (List.replicate 10 0) [])).output? = some buf :=
  ⟨by decide, by decide, by decide, by decide, by decide, by decide, by decide, by decide,
    order_independent [2, 0, 1] 3 2 5 (fun r c => 10 * r + c)
      (World.mk (List.replicate 10 0) [])
      (by decide) (by decide) (by decide) (by decide) (by decide) (by decide) (by decide)
      (by decide)⟩

/-- C6 (truncated-tail policy, `TestThread.cpp`): with `q = height / numThreads`, every
worker `i`, the last included, passes `startRow = i * q` and `numRows = q` to the kernel;
a row `r ≥ numThreads * q` is in no worker's range; `mandelbrotThread` returns, and every
buffer element `r * width + c` of such a row still holds its initial value; when
`numThreads > height` the buffer is unchanged. -/
theorem truncated_tail (sched : List Nat) (numThreads width height : Int)
    (f : Int → Int → Int) (w : World) (hw : isInt width)
    (hh1 : 1 ≤ height) (hh2 : height < 2147483648)
    (hn1 : 1 ≤ numThreads) (hn2 : numThreads ≤ 32)
    (hs : sched.Perm (workerIds numThreads)) :
    (∀ i : Nat, (i : Int) < numThreads →
      TestThread.rowRange (mkArgs numThreads width height i) =
        some ((i : Int) * (height / numThreads), height / numThreads)) ∧
    (∀ (i : Nat) (r : Int), (i : Int) < numThreads →
      numThreads * (height / numThreads) ≤ r →
      ¬ inRange (TestThread.rowRange (mkArgs numThreads width height i)) r) ∧
    (∃ w1 : World,
      TestThread.mandelbrotThread sched numThreads width height f w = Result.returned w1 ∧
      w1.output.length = w.output.length ∧
      (∀ (r c : Int) (k : Nat), numThreads * (height / numThreads) ≤ r →
        0 ≤ c → c < width → (k : Int) = r * width + c → w1.output[k]? = w.output[k]?) ∧
      (height < numThreads → w1.output = w.output)) := by
  have hmem := perm_workerIds_mem numThreads hn1 sched hs
  obtain ⟨hq0, _, _⟩ := quot_facts height numThreads (by omega) hn1
  have hrg : ∀ i : Nat, (i : Int) < numThreads →
      TestThread.rowRange (mkArgs numThreads width height i) =
        some (truncatedTail height numThreads i) :=
    fun i hi => TestThread.rowRange_trunc numThreads width height i hh1 hh2 hn2 hi
  refine ⟨fun i hi => hrg i hi, ?_, ?_⟩
  · intro i r hi hr hin
    rw [hrg i hi] at hin
    unfold truncatedTail at hin
    rw [inRange_some] at hin
    have h3 := mul_quot_mono ((i : Int) + 1) numThreads _ (by omega) hq0
    rw [Int.add_mul, Int.one_mul] at h3
    omega
  · refine ⟨_, TestThread.mandelbrotThread_trunc sched numThreads width height f w hw hh1 hh2 hn2
      (fun i hi => (hmem i).1 hi), ?_, ?_, ?_⟩
    · exact length_runBlocks _ _ _ _ _ _
    · intro r c k hr hc0 hc hk
      have hwpos : 0 < width := by omega
      have hrow : (k : Int) / width = r := (row_iff width r (k : Int) hwpos).1 (by omega)
      simp only []
      rw [getElem?_runBlocks_truncatedTail numThreads width height hwpos (by omega) hn1 f
        sched hmem, if_neg (by omega)]
    · intro hlt
      apply runBlocks_no_rows
      intro i _
      unfold truncatedTail
      simp only []
      rw [Int.ediv_eq_zero_of_lt (by omega) hlt]

/-- Witness of C6: a `2 × 5` image with three threads; rows 3 and 4 keep the value 7. -/
theorem truncated_tail_witness :
    isInt 2 ∧ (1 : Int) ≤ 5 ∧ (5 : Int) < 2147483648 ∧ (1 : Int) ≤ 3 ∧ (3 : Int) ≤ 32 ∧
    List.Perm [0, 1, 2] (workerIds 3) ∧
    ∃ w1 : World,
      TestThread.mandelbrotThread [0, 1, 2] 3 2 5 (fun _ _ => 1)
        (World.mk (List.replicate 10 7) []) = Result.returned w1 ∧
      w1.output.length = (World.mk (List.replicate 10 7) []).output.length ∧
      (∀ (r c : Int) (k : Nat), (3 : Int) * (5 / 3) ≤ r →
        0 ≤ c → c < 2 → (k : Int) = r * 2 + c →
          w1.output[k]? = (World.mk (List.replicate 10 7) []).output[k]?) ∧
      ((5 : Int) < 3 → w1.output = (World.mk (List.replicate 10 7) []).output) :=
  ⟨by decide, by decide, by decide, by decide, by decide, by decide,
    (truncated_tail [0, 1, 2] 3 2 5 (fun _ _ => 1) (World.mk (List.replicate 10 7) [])
      (by decide) (by decide) (by decide) (by decide) (by decide) (by decide)).2.2⟩

/-- C7 (the two files differ only on non-divisible heights): the `(startRow, numRows)` pairs
of `mandelbrotThread.cpp` and `TestThread.cpp` are equal for every thread id below
`numThreads - 1`, and they are equal for all thread ids exactly when
`height mod numThreads = 0`. -/
theorem policies_agree_iff (numThreads width height : Int)
    (hh1 : 1 ≤ height) (hh2 : height < 2147483648)
    (hn1 : 1 ≤ numThreads) (hn2 : numThreads ≤ 32) :
    (∀ i : Nat, (i : Int) < numThreads - 1 →
      ∃ rg : Int × Int,
        MandelbrotThread.rowRange (mkArgs numThreads width height i) = some rg ∧
        TestThread.rowRange (mkArgs numThreads width height i) = some rg) ∧
    ((∀ i : Nat, (i : Int) < numThreads →
        MandelbrotThread.rowRange (mkArgs numThreads width height i) =
          TestThread.rowRange (mkArgs numThreads width height i)) ↔
      height % numThreads = 0) := by
  have hm : ∀ i : Nat, (i : Int) < numThreads →
      MandelbrotThread.rowRange (mkArgs numThreads width height i) =
        some (remainderToLast height numThreads i) :=
    fun i hi => MandelbrotThread.rowRange_eq numThreads width height i hh1 hh2 hn2 hi
  have ht : ∀ i : Nat, (i : Int) < numThreads →
      TestThread.rowRange (mkArgs numThreads width height i) =
        some (truncatedTail height numThreads i) :=
    fun i hi => TestThread.rowRange_trunc numThreads width height i hh1 hh2 hn2 hi
  have hdm := Int.ediv_add_emod height numThreads
  have hlast : (((numThreads - 1).toNat : Nat) : Int) = numThreads - 1 := by omega
  have hmul : (numThreads - 1) * (height / numThreads) =
      numThreads * (height / numThreads) - height / numThreads := by
    rw [Int.sub_mul, Int.one_mul]
  constructor
  · intro i hi
    refine ⟨truncatedTail height numThreads i, ?_, ht i (by omega)⟩
    rw [hm i (by omega)]
    unfold remainderToLast truncatedTail
    rw [if_pos hi]
  · constructor
    · intro hall
      have h := hall (numThreads - 1).toNat (by omega)
      rw [hm _ (by omega), ht _ (by omega)] at h
      unfold remainderToLast truncatedTail at h
      rw [hlast, if_neg (by omega)] at h
      have h2 := congrArg Prod.snd (Option.some.inj h)
      simp only [] at h2
      omega
    · intro hmod i hi
      rw [hm i hi, ht i hi]
      unfold remainderToLast truncatedTail
      by_cases hl : (i : Int) < numThreads - 1
      · rw [if_pos hl]
      · rw [if_neg hl]
        have he : (i : Int) = numThreads - 1 := by omega
        rw [he]
        refine congrArg some (Prod.ext rfl ?_)
        simp only []
        omega

/-- Witness of C7 at `height = 8`, `numThreads = 4`: the ranges are the same in both files. -/
theorem policies_agree_iff_witness :
    (1 : Int) ≤ 8 ∧ (8 : Int) < 2147483648 ∧ (1 : Int) ≤ 4 ∧ (4 : Int) ≤ 32 ∧
    ∀ i : Nat, (i : Int) < 4 →
      MandelbrotThread.rowRange (mkArgs 4 8 8 i) = TestThread.rowRange (mkArgs 4 8 8 i) :=
  ⟨by decide, by decide, by decide, by decide,
    (policies_agree_iff 4 8 8 (by decide) (by decide) (by decide) (by decide)).2.2
      (by decide)⟩

/-- C10 (the row arithmetic is well defined and exact, both files): for
`1 ≤ height < 2^31`, `1 ≤ numThreads ≤ 32` and a thread id below `numThreads`, the divisor
is non-zero, the unsigned product and sum equal their exact values (nothing wraps modulo
`2^32`), the conversions to `int` keep the value, both files pass the exact integer values
to the kernel, and `0 ≤ startRow`, `0 ≤ numRows`, `startRow + numRows ≤ height`. -/
theorem row_arithmetic_exact (numThreads width height : Int) (i : Nat)
    (hh1 : 1 ≤ height) (hh2 : height < 2147483648)
    (hn1 : 1 ≤ numThreads) (hn2 : numThreads ≤ 32) (hi : (i : Int) < numThreads) :
    toUnsigned (mkArgs numThreads width height i).numThreads ≠ 0 ∧
    udiv (mkArgs numThreads width height i).height
        (toUnsigned (mkArgs numThreads width height i).numThreads) =
      some (height / numThreads).toNat ∧
    umul (toUnsigned (mkArgs numThreads width height i).threadId) (height / numThreads).toNat =
      i * (height / numThreads).toNat ∧
    toSigned (i * (height / numThreads).toNat) = (i : Int) * (height / numThreads) ∧
    uadd (i * (height / numThreads).toNat) (height / numThreads).toNat =
      i * (height / numThreads).toNat + (height / numThreads).toNat ∧
    toSigned (i * (height / numThreads).toNat + (height / numThreads).toNat) =
      (i : Int) * (height / numThreads) + height / numThreads ∧
    toSigned (mkArgs numThreads width height i).height = height ∧
    MandelbrotThread.rowRange (mkArgs numThreads width height i) =
      some ((i : Int) * (height / numThreads),
        if (i : Int) = numThreads - 1 then height - (i : Int) * (height / numThreads)
        else height / numThreads) ∧
    TestThread.rowRange (mkArgs numThreads width height i) =
      some ((i : Int) * (height / numThreads), height / numThreads) ∧
    (∀ s c : Int,
      (MandelbrotThread.rowRange (mkArgs numThreads width height i) = some (s, c) ∨
        TestThread.rowRange (mkArgs numThreads width height i) = some (s, c)) →
      0 ≤ s ∧ 0 ≤ c ∧ s + c ≤ height) := by
  lift height to Nat using (by omega) with H
  lift numThreads to Nat using (by omega) with N
  have hm := MandelbrotThread.rowRange_eq (N : Int) width (H : Int) i hh1 hh2 hn2 hi
  have ht := TestThread.rowRange_trunc (N : Int) width (H : Int) i hh1 hh2 hn2 hi
  obtain ⟨hq0, hq1, _⟩ := quot_facts (H : Int) (N : Int) (by omega) hn1
  have hp : 0 ≤ (i : Int) * ((H : Int) / (N : Int)) := Int.mul_nonneg (by omega) hq0
  have hb := mul_quot_mono ((i : Int) + 1) (N : Int) _ (by omega) hq0
  rw [Int.add_mul, Int.one_mul] at hb
  have hqc : ((H : Int) / (N : Int)).toNat = H / N := by
    rw [← Int.natCast_div]; exact Int.toNat_natCast _
  have hbn := block_le H N i (by omega)
  have hqn : H / N ≤ H := Nat.div_le_self H N
  have hcm : ((i * (H / N) : Nat) : Int) = (i : Int) * ((H : Int) / (N : Int)) := by
    simp only [Nat.cast_mul, Int.natCast_div]
  unfold remainderToLast at hm
  unfold truncatedTail at ht
  simp only [mkArgs] at hm ht ⊢
  rw [toUnsigned_natCast H (by omega)] at hm ht
  rw [hqc, toUnsigned_natCast H (by omega), toUnsigned_natCast N (by omega),
    toUnsigned_natCast i (by omega)]
  refine ⟨by omega, udiv_of_pos H N (by omega), ?_, ?_, ?_, ?_, toSigned_of_lt H (by omega),
    ?_, ht, ?_⟩
  · unfold umul
    generalize i * (H / N) = p at *
    omega
  · rw [toSigned_of_lt _ (by omega), hcm]
  · unfold uadd
    generalize i * (H / N) = p at *
    omega
  · rw [toSigned_of_lt _ (by omega), Nat.cast_add, hcm, Int.natCast_div]
  · rw [hm]
    by_cases hl : (i : Int) < (N : Int) - 1
    · rw [if_pos hl, if_neg (by omega)]
    · rw [if_neg hl, if_pos (by omega)]
  · intro s c hsc
    rcases hsc with h | h
    · rw [hm] at h
      have h1 := congrArg Prod.fst (Option.some.inj h)
      have h2 := congrArg Prod.snd (Option.some.inj h)
      simp only [] at h1 h2
      by_cases hl : (i : Int) < (N : Int) - 1
      · rw [if_pos hl] at h2
        omega
      · rw [if_neg hl] at h2
        omega
    · rw [ht] at h
      have h1 := congrArg Prod.fst (Option.some.inj h)
      have h2 := congrArg Prod.snd (Option.some.inj h)
      simp only [] at h1 h2
      omega

/-- Witness of C10 at `height = 2147483647`, `numThreads = 32`, thread 31. -/
theorem row_arithmetic_exact_witness :
    (1 : Int) ≤ 2147483647 ∧ (2147483647 : Int) < 2147483648 ∧ (1 : Int) ≤ 32 ∧
    (32 : Int) ≤ 32 ∧ ((31 : Nat) : Int) < 32 ∧
    MandelbrotThread.rowRange (mkArgs 32 1 2147483647 31) =
      some (((31 : Nat) : Int) * (2147483647 / 32),
        if ((31 : Nat) : Int) = 32 - 1 then 2147483647 - ((31 : Nat) : Int) * (2147483647 / 32)
        else 2147483647 / 32) ∧
    TestThread.rowRange (mkArgs 32 1 2147483647 31) =
      some (((31 : Nat) : Int) * (2147483647 / 32), 2147483647 / 32) :=
  ⟨by decide, by decide, by decide, by decide, by decide,
    (row_arithmetic_exact 32 1 2147483647 31 (by decide) (by decide) (by decide) (by decide)
      (by decide)).2.2.2.2.2.2.2.1,
    (row_arithmetic_exact 32 1 2147483647 31 (by decide) (by decide) (by decide) (by decide)
      (by decide)).2.2.2.2.2.2.2.2.1⟩

/-- C3 (the correctness check of `TestThread.cpp`), evaluated on the code: with the pixel
function that is `1` everywhere, `testThreadCounts` reports a failed check for 3, 5, 6 and 7
threads, the thread counts that do not divide 2048, and a passed check for 2, 4 and 8. -/
theorem test_sweep_outcome :
    TestThread.testThreadCounts workerIds (fun _ _ => 1) (List.replicate 4194304 0) =
      [(2, some true), (3, some false), (4, some true), (5, some false), (6, some false),
       (7, some false), (8, some true)] := by
  have hfresh : (List.replicate 4194304 (0 : Int)).length = ((2048 : Int) * 2048).toNat := by
    rw [List.length_replicate]; decide
  have h : ∀ n : Int, 1 ≤ n → n ≤ 32 →
      TestThread.testOne (workerIds n) n 2048 2048 (fun _ _ => 1)
        (mandelbrotSerial 2048 2048 0 2048 (fun _ _ => 1) (List.replicate 4194304 0)) =
      some (decide ((2048 : Int) % n = 0)) :=
    fun n h1 h2 => TestThread.testOne_ones (workerIds n) n 2048 2048 _ (by decide) (by decide)
      (by decide) (by decide) h1 h2 (List.Perm.refl _) hfresh
  unfold TestThread.testThreadCounts
  simp only [List.map_cons, List.map_nil]
  rw [h 2 (by decide) (by decide), h 3 (by decide) (by decide), h 4 (by decide) (by decide),
    h 5 (by decide) (by decide), h 6 (by decide) (by decide), h 7 (by decide) (by decide),
    h 8 (by decide) (by decide)]
  decide

end Mandelbrot
